import Mathlib

/-!
iForth interpreter: a shallow embedding of `forth.cpp`.

Source text is a byte sequence (`List Nat`, each byte < 256 in practice).
The lexer turns it into a stream of tokens; the machine carries two `Int`
stacks, a dictionary and a label table (association lists whose head entry
shadows older ones, matching `std::map::operator[]` overwrite semantics for
lookups), a token-indexed instruction pointer, and the bytes written so far
to standard output.

C++ `int` values are modelled as unbounded `Int` (no claim here exercises
overflow); `char` is signed on the reference platform, so pushing a source
byte goes through `signedByte` and writing an `int` back out as a byte goes
through `byteOf`.  A step either succeeds, stops in the diagnostic-and-
`exit(1)` error path (`error_state`), or hits C++ undefined behaviour
(`StepRes.ub`): division by zero and the two places the interpreter
dereferences the end iterator.
-/

namespace IForth

/-- Byte values of a string literal (ASCII programs only). -/
def bsv (s : String) : List Nat := s.data.map Char.toNat

/-- Token kinds, one per lexer rule (`enum class tokens`). -/
inductive TokKind where
  | comment | startDef | endDef | print | ident | number | string | label
deriving DecidableEq, Repr

/-- A lexed token: its kind and its source slice (`struct token`). -/
structure Tok where
  kind : TokKind
  slice : List Nat
deriving DecidableEq, Repr

/-- `machine_state`: token stream, instruction pointer (token index,
`stream.length` = end of stream), the two stacks (head = top, matching
`deque::back`), dictionary, label table, and stdout bytes. -/
structure Machine where
  stream : List Tok
  ip : Nat
  dstack : List Int
  rstack : List Int
  dict : List (List Nat × Nat)
  labels : List (List Nat × Nat)
  out : List Nat
deriving DecidableEq, Repr

/-- Association-list lookup; the first (most recently inserted) binding
for a key wins, which models `std::map` entry overwriting. -/
def lookupA : List (List Nat × Nat) → List Nat → Option Nat
  | [], _ => none
  | (k, v) :: rest, key => if k = key then some v else lookupA rest key

/-- One interpreter step outcome: a new state, the diagnostic error path
(`error_state` prints to stderr and calls `exit(1)`), or C++ undefined
behaviour. -/
inductive StepRes where
  | ok (m : Machine)
  | err (m : Machine) (msg : String)
  | ub
deriving DecidableEq, Repr

/-- `machine_state::abs_inst`: clamp an address into `[0, size]`. -/
def absInst (size : Nat) (a : Int) : Nat :=
  if a < 0 then 0 else min a.toNat size

/-- `rel_inst`/`rbranch` target from the current ip. -/
def Machine.relTarget (m : Machine) (off : Int) : Nat :=
  absInst m.stream.length ((m.ip : Int) + off)

/-- `machine_state::next()`: advance the ip one token (clamped). -/
def Machine.next (m : Machine) : Machine :=
  { m with ip := m.relTarget 1 }

/-- `(int)(char)b` for a source byte: `char` is signed on the platform. -/
def signedByte (b : Nat) : Int :=
  if b < 128 then (b : Int) else (b : Int) - 256

/-- `(char)c` for an `int`, as the byte actually written to the stream. -/
def byteOf (c : Int) : Nat := (c % 256).toNat

/-- `toLower` from the source.  Its `std::transform(s.begin(), s.end(),
s.end(), …)` passes `s.end()` as the *destination* iterator, so the
lowercased bytes are written past the end of the buffer and the visible
content of the returned string is unchanged: behaviourally the function
performs no case folding at all, and that identity is what callers
observe. -/
def toLowerB (s : List Nat) : List Nat := s

/-- Decimal digits (as bytes) of a natural number. -/
def natDecimal (n : Nat) : List Nat := (Nat.toDigits 10 n).map Char.toNat

/-- Bytes `operator<<(int)` writes for a value. -/
def intDecimal (v : Int) : List Nat :=
  if v < 0 then 45 :: natDecimal v.natAbs else natDecimal v.toNat

/-- Hex/decimal digit value of a byte (0 for non-digits). -/
def hexDigitVal (b : Nat) : Nat :=
  if 48 ≤ b ∧ b ≤ 57 then b - 48
  else if 97 ≤ b ∧ b ≤ 102 then b - 87
  else if 65 ≤ b ∧ b ≤ 70 then b - 55
  else 0

def isHexDigit (b : Nat) : Bool :=
  (48 ≤ b && b ≤ 57) || (97 ≤ b && b ≤ 102) || (65 ≤ b && b ≤ 70)

def isOctDigit (b : Nat) : Bool := 48 ≤ b && b ≤ 55

def isDecDigit (b : Nat) : Bool := 48 ≤ b && b ≤ 57

/-- Value of a digit run in the given base. -/
def digitsVal (base : Nat) (p : Nat → Bool) (s : List Nat) : Nat :=
  (s.takeWhile p).foldl (fun acc b => acc * base + hexDigitVal b) 0

/-- `strtol(s, nullptr, 0)` after the optional sign: `0x`/`0X` hex, then
leading-`0` octal, else decimal; parsing stops at the first non-digit. -/
def parseNumBody : List Nat → Int
  | 48 :: x :: rest =>
    if x = 120 ∨ x = 88 then (digitsVal 16 isHexDigit rest : Int)
    else (digitsVal 8 isOctDigit (x :: rest) : Int)
  | [48] => 0
  | s => (digitsVal 10 isDecDigit s : Int)

/-- `strtol(s, nullptr, 0)` on a lexed slice, including the sign. -/
def parseNum : List Nat → Int
  | 45 :: rest => - parseNumBody rest
  | 43 :: rest => parseNumBody rest
  | s => parseNumBody s

/-- The operator slices accepted by `isOperation`'s regex
`([-+*/%&|!=]|<>|<(=)?|>(=)?)` (a full-slice match). -/
def opSlices : List (List Nat) :=
  [bsv "-", bsv "+", bsv "*", bsv "/", bsv "%", bsv "&", bsv "|", bsv "!",
   bsv "=", bsv "<>", bsv "<", bsv "<=", bsv ">", bsv ">="]

/-- `isOperation`: does the whole slice match the operator regex? -/
def isOperation (s : List Nat) : Bool := decide (s ∈ opSlices)

/-- Payload of a `"…"` string slice: the bytes between the quotes. -/
def strPayload (s : List Nat) : List Nat := (s.drop 1).dropLast

/-- Name stored for a `[name]` label slice. -/
def labelName (s : List Nat) : List Nat := (s.drop 1).dropLast

/-- One reversed-order push of `interpString`'s loop body: a plain byte is
pushed (sign-extended); a backslash pops the previously pushed value and
pushes its escape (`n r " \ t`), dropping it entirely otherwise; a
backslash finding the stack empty pushes a literal backslash. -/
def pushByte (stk : List Int) (b : Nat) : List Int :=
  if b = 92 then
    match stk with
    | [] => [92]
    | c :: rest =>
      if c = 110 then 10 :: rest
      else if c = 114 then 13 :: rest
      else if c = 34 then 34 :: rest
      else if c = 92 then 92 :: rest
      else if c = 116 then 9 :: rest
      else rest
  else signedByte b :: stk

/-- `interpString`: push `0`, then the payload bytes from last to first
(so the string pops back in order, null-terminated). -/
def interpString (payload : List Nat) (stk : List Int) : List Int :=
  List.foldr (fun b acc => pushByte acc b) ((0 : Int) :: stk) payload

/-- The `.s` drain loop: pop and emit bytes until a `0` is popped.
Returns the bytes written and, on success, the remaining stack; `none`
as the second component is the stack-underflow diagnostic. -/
def drainS : List Int → List Nat × Option (List Int)
  | [] => ([], none)
  | c :: rest =>
    if c = 0 then ([], some rest)
    else
      let (o, r) := drainS rest
      (byteOf c :: o, r)

/-- Result of the binary-operator `switch` in `interpOperation`, given the
operator slice and the two popped operands (`r` popped first, `l` second).
`divZero` marks `l / 0` and `l % 0`, which are undefined behaviour in C++;
`malformed` is the diagnostic for a bad `<`/`>` slice; `nothing` is the
no-matching-`case` fall-through that pushes no result (unreachable from
`isOperation` slices). -/
inductive OpOut where
  | val (v : Int)
  | divZero
  | malformed (msg : String)
  | nothing
deriving DecidableEq, Repr

/-- The `switch (*tok.start)` of `interpOperation`, with the second-byte
checks for `<`/`>` slices. -/
def binOpRes (s : List Nat) (l r : Int) : OpOut :=
  match s.head? with
  | some 43 => .val (l + r)
  | some 45 => .val (l - r)
  | some 42 => .val (l * r)
  | some 47 => if r = 0 then .divZero else .val (Int.tdiv l r)
  | some 37 => if r = 0 then .divZero else .val (Int.tmod l r)
  | some 38 => .val (if l ≠ 0 ∧ r ≠ 0 then 1 else 0)
  | some 124 => .val (if l ≠ 0 ∨ r ≠ 0 then 1 else 0)
  | some 60 =>
    if s.length = 1 then .val (if l < r then 1 else 0)
    else match s[1]? with
      | some 61 => .val (if l ≤ r then 1 else 0)
      | some 62 => .val (if l ≠ r then 1 else 0)
      | _ => .malformed "malformed binary operator beginning with '<'"
  | some 62 =>
    if s.length = 1 then .val (if l > r then 1 else 0)
    else match s[1]? with
      | some 61 => .val (if l ≥ r then 1 else 0)
      | _ => .malformed "malformed binary operator beginning with '>'"
  | some 61 => .val (if l = r then 1 else 0)
  | _ => .nothing

/-- `interpOperation`: `!` is unary (`push(!pop())`); every other operator
pops `r` then `l` and dispatches through `binOpRes`.  Underflow while
popping is the empty-stack diagnostic. -/
def interpOperation (m : Machine) (t : Tok) : StepRes :=
  if t.slice = [33] then
    match m.dstack with
    | [] => .err m "tried to pop from empty stack"
    | x :: rest =>
      .ok (Machine.next { m with dstack := (if x = 0 then 1 else 0) :: rest })
  else
    match m.dstack with
    | [] => .err m "tried to pop from empty stack"
    | [_] => .err { m with dstack := [] } "tried to pop from empty stack"
    | r :: l :: rest =>
      match binOpRes t.slice l r with
      | .val v => .ok (Machine.next { m with dstack := v :: rest })
      | .divZero => .ub
      | .malformed msg => .err { m with dstack := rest } msg
      | .nothing => .ok (Machine.next { m with dstack := rest })

/-- `machine_state::exit()`: pop the return stack (diagnostic if empty or
out of `[0, size]`) and branch there. -/
def exitStep (m : Machine) : StepRes :=
  match m.rstack with
  | [] =>
    .err m "tried to exit from a subroutine with an empty return stack."
  | rip :: rest =>
    if rip < 0 ∨ rip > (m.stream.length : Int) then
      .err { m with rstack := rest } "exit from subroutine to invalid address"
    else
      .ok { m with rstack := rest, ip := absInst m.stream.length rip }

/-- First offset (within a token list) holding an `EndDefinition` token:
the scan loop of the `:` behaviour. -/
def scanSemi : List Tok → Option Nat
  | [] => none
  | t :: rest =>
    if t.kind = .endDef then some 0
    else (scanSemi rest).map (· + 1)

/-- `isTokenWithId`: an identifier token whose slice, passed through the
no-op `toLower`, is `id` — so in fact only exactly-lowercase keywords
match. -/
def isTokenWithId (idb : List Nat) (t : Tok) : Bool :=
  t.kind = .ident && toLowerB t.slice = idb

/-- The scan predicate of the `if` intrinsic as a state machine: stop at
the first `else`/`then` at depth 0; inner `if`s increment the depth and
`then`s at positive depth close them.  Returns the offset of the stop. -/
def scanIf : List Tok → Nat → Option Nat
  | [], _ => none
  | t :: rest, c =>
    if c = 0 ∧ (isTokenWithId (bsv "else") t ∨ isTokenWithId (bsv "then") t) then
      some 0
    else
      let c' := if isTokenWithId (bsv "if") t then c + 1
                else if isTokenWithId (bsv "then") t then c - 1 else c
      (scanIf rest c').map (· + 1)

/-- The scan of the `else` intrinsic: stop at the first `then` at depth 0,
with the same `if`/`then` depth discipline (an `else` does not stop it). -/
def scanElse : List Tok → Nat → Option Nat
  | [], _ => none
  | t :: rest, c =>
    if c = 0 ∧ isTokenWithId (bsv "then") t then some 0
    else
      let c' := if isTokenWithId (bsv "if") t then c + 1
                else if isTokenWithId (bsv "then") t then c - 1 else c
      (scanElse rest c').map (· + 1)

/-- `branch_to_target`: step onto the target token (dereferencing the end
iterator — undefined behaviour — when there is none), then either skip it
(`do_branch` false), take a relative branch on a Number target, or look any
other target's slice up in the label table. -/
def branchToTarget (m : Machine) (doBranch : Bool) : StepRes :=
  let m1 := m.next
  match m1.stream[m1.ip]? with
  | none => .ub
  | some tt =>
    if !doBranch then .ok m1.next
    else if tt.kind = .number then
      .ok { m1 with ip := m1.relTarget (parseNum tt.slice) }
    else
      match lookupA m1.labels tt.slice with
      | some a => .ok { m1 with ip := a }
      | none => .err m1 "tried to branch to nonexistent label"

/-- `print_stack`: entries from deepest to top, labelled with the
zero-based-from-top index, space separated. -/
def stackEntries : Nat → List Int → List Nat
  | _, [] => []
  | idx, v :: rest =>
    natDecimal idx ++ [58] ++ intDecimal v ++
      (if idx = 0 then [] else [32]) ++ stackEntries (idx - 1) rest

def stackRender (s : List Int) : List Nat :=
  [91] ++ stackEntries (s.length - 1) s.reverse ++ bsv "]\n"

def tokStreamRender : Nat → List Tok → List Nat
  | _, [] => []
  | i, t :: rest =>
    natDecimal i ++ bsv ":[" ++ t.slice ++ bsv "] " ++ tokStreamRender (i + 1) rest

/-- `machine_state::debug`: the `.d` dump, byte for byte. -/
def renderDebug (m : Machine) : List Nat :=
  bsv "========= machine state =========\n" ++
  bsv "token stream:\n" ++
  tokStreamRender 0 m.stream ++
  bsv "\n\ndata stack:\n" ++ stackRender m.dstack ++
  bsv "\nreturn stack:\n" ++ stackRender m.rstack ++
  bsv "\nip: " ++ natDecimal m.ip ++ [32] ++
  (match m.stream[m.ip]? with
   | none => [10]
   | some t => [40] ++ t.slice ++ bsv ")\n") ++
  bsv "=================================\n"

/-- The `dup` intrinsic. -/
def dupI (m : Machine) : StepRes :=
  match m.dstack with
  | [] => .err m "tried to peek empty stack"
  | x :: _ => .ok (Machine.next { m with dstack := x :: m.dstack })

/-- The `swap` intrinsic (pop `b`, pop `a`, push `b`, push `a`). -/
def swapI (m : Machine) : StepRes :=
  match m.dstack with
  | [] => .err m "tried to pop from empty stack"
  | [_] => .err { m with dstack := [] } "tried to pop from empty stack"
  | b :: a :: rest => .ok (Machine.next { m with dstack := a :: b :: rest })

/-- The `over` intrinsic (pop `b`, pop `a`, push `a`, push `b`, push `a`). -/
def overI (m : Machine) : StepRes :=
  match m.dstack with
  | [] => .err m "tried to pop from empty stack"
  | [_] => .err { m with dstack := [] } "tried to pop from empty stack"
  | b :: a :: rest =>
    .ok (Machine.next { m with dstack := a :: b :: a :: rest })

/-- The `rot` intrinsic (pop `c b a`, push `b`, push `c`, push `a`). -/
def rotI (m : Machine) : StepRes :=
  match m.dstack with
  | [] => .err m "tried to pop from empty stack"
  | [_] => .err { m with dstack := [] } "tried to pop from empty stack"
  | [_, _] => .err { m with dstack := [] } "tried to pop from empty stack"
  | c :: b :: a :: rest =>
    .ok (Machine.next { m with dstack := a :: c :: b :: rest })

/-- The `drop` intrinsic. -/
def dropI (m : Machine) : StepRes :=
  match m.dstack with
  | [] => .err m "tried to pop from empty stack"
  | _ :: rest => .ok (Machine.next { m with dstack := rest })

/-- The `clear` intrinsic. -/
def clearI (m : Machine) : StepRes :=
  .ok (Machine.next { m with dstack := [] })

/-- The `if` intrinsic: pop; when zero, scan forward (starting just past
the `if`) for the matching `else`/`then` with the nesting counter, then
step past it; when nonzero just fall through. -/
def ifI (m : Machine) : StepRes :=
  match m.dstack with
  | [] => .err m "tried to pop from empty stack"
  | v :: rest =>
    if v ≠ 0 then .ok (Machine.next { m with dstack := rest })
    else
      let m1 := Machine.next { m with dstack := rest }
      match scanIf (m1.stream.drop m1.ip) 0 with
      | none =>
        .err { m1 with ip := m1.stream.length } "'if' with no corresponding 'then'"
      | some k => .ok (Machine.next { m1 with ip := m1.ip + k })

/-- The `else` intrinsic: scan forward for the matching `then`, then step
past it. -/
def elseI (m : Machine) : StepRes :=
  let m1 := m.next
  match scanElse (m1.stream.drop m1.ip) 0 with
  | none =>
    .err { m1 with ip := m1.stream.length } "'else' with no corresponding 'then'"
  | some k => .ok (Machine.next { m1 with ip := m1.ip + k })

/-- The `then` intrinsic: a no-op that advances. -/
def thenI (m : Machine) : StepRes := .ok m.next

/-- The `branch` intrinsic. -/
def branchI (m : Machine) : StepRes := branchToTarget m true

/-- The `?branch` intrinsic: pop, then branch exactly when nonzero. -/
def condBranchI (m : Machine) : StepRes :=
  match m.dstack with
  | [] => .err m "tried to pop from empty stack"
  | v :: rest => branchToTarget { m with dstack := rest } (v ≠ 0)

/-- The `>r` intrinsic. -/
def toRI (m : Machine) : StepRes :=
  match m.dstack with
  | [] => .err m "tried to pop from empty stack"
  | v :: rest =>
    .ok (Machine.next { m with dstack := rest, rstack := v :: m.rstack })

/-- The `r>` intrinsic. -/
def fromRI (m : Machine) : StepRes :=
  match m.rstack with
  | [] => .err m "tried to pop from empty return stack"
  | v :: rest =>
    .ok (Machine.next { m with rstack := rest, dstack := v :: m.dstack })

/-- The `r@` intrinsic. -/
def rAtI (m : Machine) : StepRes :=
  match m.rstack with
  | [] => .err m "tried to peek empty return stack"
  | v :: _ => .ok (Machine.next { m with dstack := v :: m.dstack })

/-- The `rdrop` intrinsic. -/
def rdropI (m : Machine) : StepRes :=
  match m.rstack with
  | [] => .err m "tried to pop from empty return stack"
  | _ :: rest => .ok (Machine.next { m with rstack := rest })

/-- The `rclear` intrinsic. -/
def rclearI (m : Machine) : StepRes :=
  .ok (Machine.next { m with rstack := [] })

/-- The `cr` intrinsic. -/
def crI (m : Machine) : StepRes :=
  .ok (Machine.next { m with out := m.out ++ [10] })

/-- The `exit` intrinsic. -/
def exitI (m : Machine) : StepRes := exitStep m

/-- The `intrinsics` map, looked up by name (the caller routes the slice
through the no-op `toLower` first). -/
def intrinsicFn (id : List Nat) : Option (Machine → StepRes) :=
  if id = bsv "dup" then some dupI
  else if id = bsv "swap" then some swapI
  else if id = bsv "over" then some overI
  else if id = bsv "rot" then some rotI
  else if id = bsv "drop" then some dropI
  else if id = bsv "clear" then some clearI
  else if id = bsv "if" then some ifI
  else if id = bsv "else" then some elseI
  else if id = bsv "then" then some thenI
  else if id = bsv "branch" then some branchI
  else if id = bsv "?branch" then some condBranchI
  else if id = bsv ">r" then some toRI
  else if id = bsv "r>" then some fromRI
  else if id = bsv "r@" then some rAtI
  else if id = bsv "rdrop" then some rdropI
  else if id = bsv "rclear" then some rclearI
  else if id = bsv "cr" then some crI
  else if id = bsv "exit" then some exitI
  else none

/-- The `:` behaviour: read the name (must be an identifier), remember the
index just past it, skip to the closing `;` (dereferencing the end
iterator — undefined behaviour — if the stream runs out first), step past
the `;`, and record the definition. -/
def startDefStep (m : Machine) : StepRes :=
  let m1 := m.next
  match m1.stream[m1.ip]? with
  | none => .err m1 "expecting identifier"
  | some t1 =>
    if t1.kind ≠ .ident then .err m1 "expecting identifier"
    else
      let m2 := m1.next
      match scanSemi (m2.stream.drop m2.ip) with
      | none => .ub
      | some k =>
        let m3 := Machine.next { m2 with ip := m2.ip + k }
        .ok { m3 with dict := (t1.slice, m2.ip) :: m3.dict }

/-- The `[name]` label behaviour: advance first, then record the name at
the already-advanced instruction pointer. -/
def labelStep (m : Machine) (t : Tok) : StepRes :=
  let m1 := m.next
  .ok { m1 with labels := (labelName t.slice, m1.ip) :: m1.labels }

/-- The `while (true)` drain loop shared by `.s` and `."…"`: pop and
write bytes until a `0` is popped, then advance; underflow first is the
missing-null-terminator diagnostic. -/
def drainStep (m : Machine) : StepRes :=
  match drainS m.dstack with
  | (o, some rest) =>
    .ok (Machine.next { m with dstack := rest, out := m.out ++ o })
  | (o, none) =>
    .err { m with dstack := [], out := m.out ++ o }
      "no null terminator found before end of stack reached"

/-- The print behaviours (`.` `.c` `.d` `.s` `."…"`): dispatch on the
slice.  A `."…"` pushes its literal and then falls through into the same
drain loop as `.s`. -/
def printStep (m : Machine) (t : Tok) : StepRes :=
  if t.slice.length > 1 then
    match t.slice[1]? with
    | some 34 =>
      drainStep { m with dstack := interpString ((t.slice.drop 2).dropLast) m.dstack }
    | some 100 => .ok (Machine.next { m with out := m.out ++ renderDebug m })
    | some 99 =>
      match m.dstack with
      | [] => .err m "tried to pop from empty stack"
      | c :: rest =>
        .ok (Machine.next { m with dstack := rest, out := m.out ++ [byteOf c] })
    | _ => drainStep m
  else
    match m.dstack with
    | [] => .err m "tried to pop from empty stack"
    | v :: rest =>
      .ok (Machine.next { m with dstack := rest, out := m.out ++ intDecimal v ++ [10] })

/-- The identifier behaviour: operators dispatch to `interpOperation`;
otherwise the dictionary is consulted first (case-sensitively) and a hit
is a call (advance, push the return address, jump to the body); only on a
miss is the slice tried as an intrinsic — through `toLower`, which is
behaviourally the identity, so that lookup is exact too; otherwise the
undefined-word diagnostic. -/
def identStep (m : Machine) (t : Tok) : StepRes :=
  if isOperation t.slice then interpOperation m t
  else
    match lookupA m.dict t.slice with
    | some a =>
      let m1 := m.next
      .ok { m1 with rstack := (m1.ip : Int) :: m1.rstack, ip := a }
    | none =>
      match intrinsicFn (toLowerB t.slice) with
      | some f => f m
      | none => .err m "no word named <tok> in dictionary."

/-- The per-token interpret dispatch (the `interpret` member fixed at lex
time, read off the kind). -/
def interpTok (m : Machine) (t : Tok) : StepRes :=
  match t.kind with
  | .comment => .ok m.next
  | .startDef => startDefStep m
  | .endDef => exitStep m
  | .label => labelStep m t
  | .print => printStep m t
  | .number => .ok (Machine.next { m with dstack := parseNum t.slice :: m.dstack })
  | .string =>
    .ok (Machine.next { m with dstack := interpString (strPayload t.slice) m.dstack })
  | .ident => identStep m t

/-- One iteration of the evaluator loop: interpret the token at the
instruction pointer (the loop never runs a step at end-of-stream; past the
end this is the identity). -/
def stepM (m : Machine) : StepRes :=
  match m.stream[m.ip]? with
  | none => .ok m
  | some t => interpTok m t

/-- Result of `machine_state::run` under a fuel bound. -/
inductive RunResult where
  | done (m : Machine)
  | errored (m : Machine) (msg : String)
  | crash
  | fuelOut
  | lexFail
deriving DecidableEq, Repr

/-- The evaluator loop: interpret tokens until the ip reaches the end. -/
def run : Nat → Machine → RunResult
  | 0, _ => .fuelOut
  | fuel + 1, m =>
    match m.stream[m.ip]? with
    | none => .done m
    | some t =>
      match interpTok m t with
      | .ok m1 => run fuel m1
      | .err m1 msg => .errored m1 msg
      | .ub => .crash

/-- The label pre-pass of the `machine_state` constructor: every label
token's name is recorded at the label's own index; a later occurrence of
the same name overwrites an earlier one (its entry sits in front). -/
def prePassFrom : Nat → List Tok → List (List Nat × Nat)
  | _, [] => []
  | i, t :: rest =>
    let tail := prePassFrom (i + 1) rest
    if t.kind = .label then tail ++ [(labelName t.slice, i)] else tail

/-- A fresh machine over a token stream. -/
def initM (toks : List Tok) : Machine :=
  { stream := toks, ip := 0, dstack := [], rstack := [],
    dict := [], labels := prePassFrom 0 toks, out := [] }

/-- Exit code of a finished run: top of the data stack, `0` if empty. -/
def exitCode (m : Machine) : Int :=
  match m.dstack with
  | [] => 0
  | v :: _ => v

/-! ## The lexer

Each rule of `token_table` in order.  `lexRegex` anchors its pattern at the
position and appends the lookahead `(?=(\s|$))`, so every regex rule —
the comment rule included — demands whitespace or end-of-buffer right
after the match; the two `lexChar` rules (`:` and `;`) do not. -/

/-- `std::isspace` in the C locale. -/
def isWsByte (b : Nat) : Bool :=
  b = 32 || b = 9 || b = 10 || b = 11 || b = 12 || b = 13

/-- The trailing-boundary lookahead `(?=(\s|$))`. -/
def boundaryB : List Nat → Bool
  | [] => true
  | c :: _ => isWsByte c

/-- Rule 1, `\([^\)]*\)` with the boundary: a comment. -/
def lexComment : List Nat → Option (Tok × List Nat)
  | 40 :: rest =>
    let content := rest.takeWhile (· ≠ 41)
    match rest.dropWhile (· ≠ 41) with
    | 41 :: rest2 =>
      if boundaryB rest2 then
        some (⟨.comment, 40 :: (content ++ [41])⟩, rest2)
      else none
    | _ => none
  | _ => none

/-- A `lexChar` rule: a single exact byte, no boundary requirement. -/
def lexCharB (kind : TokKind) (c : Nat) : List Nat → Option (Tok × List Nat)
  | b :: rest => if b = c then some (⟨kind, [c]⟩, rest) else none
  | [] => none

/-- Rule 4, `\[[^\s]+\]` with the boundary: backtracking makes this match
exactly when the maximal non-whitespace run after the `[` ends with `]`
and is at least two bytes long. -/
def lexLabel : List Nat → Option (Tok × List Nat)
  | 91 :: rest =>
    let run := rest.takeWhile (fun b => !isWsByte b)
    if 2 ≤ run.length ∧ run.getLast? = some 93 then
      some (⟨.label, 91 :: run⟩, rest.dropWhile (fun b => !isWsByte b))
    else none
  | _ => none

/-- Rule 5, `\.([cds]|"[^"]*")?` with the boundary.  The one-byte suffixes
and the quoted form each need the boundary after them; failing that, the
empty alternative needs the boundary right after the `.`. -/
def lexPrint : List Nat → Option (Tok × List Nat)
  | 46 :: rest =>
    let bare : Option (Tok × List Nat) :=
      if boundaryB rest then some (⟨.print, [46]⟩, rest) else none
    match rest with
    | 99 :: r2 => if boundaryB r2 then some (⟨.print, [46, 99]⟩, r2) else bare
    | 100 :: r2 => if boundaryB r2 then some (⟨.print, [46, 100]⟩, r2) else bare
    | 115 :: r2 => if boundaryB r2 then some (⟨.print, [46, 115]⟩, r2) else bare
    | 34 :: r2 =>
      let content := r2.takeWhile (· ≠ 34)
      match r2.dropWhile (· ≠ 34) with
      | 34 :: r3 =>
        if boundaryB r3 then
          some (⟨.print, 46 :: 34 :: (content ++ [34])⟩, r3)
        else bare
      | _ => bare
    | _ => bare
  | _ => none

/-- The number-body alternative `0[0-7]*` with the boundary. -/
def lexOct : List Nat → Option (List Nat × List Nat)
  | 48 :: rest =>
    let ds := rest.takeWhile isOctDigit
    let r2 := rest.dropWhile isOctDigit
    if boundaryB r2 then some (48 :: ds, r2) else none
  | _ => none

/-- The unsigned part of rule 6: `0[xX]H+`, else `0[0-7]*`, else
`[1-9][0-9]*`, each greedy with the trailing boundary (giving digits back
can only expose another digit, never whitespace, so greedy matching is
exact). -/
def lexNumBody (s : List Nat) : Option (List Nat × List Nat) :=
  match s with
  | 48 :: x :: rest =>
    if x = 120 ∨ x = 88 then
      let ds := rest.takeWhile isHexDigit
      let r2 := rest.dropWhile isHexDigit
      if ds ≠ [] ∧ boundaryB r2 then some (48 :: x :: ds, r2) else lexOct s
    else lexOct s
  | 48 :: [] => lexOct s
  | b :: rest =>
    if 49 ≤ b ∧ b ≤ 57 then
      let ds := rest.takeWhile isDecDigit
      let r2 := rest.dropWhile isDecDigit
      if boundaryB r2 then some (b :: ds, r2) else none
    else none
  | [] => none

/-- Rule 6, `(-)?(0[xX][0-9a-fA-F]+|0[0-7]*|[1-9][0-9]*)` with the
boundary. -/
def lexNumber (s : List Nat) : Option (Tok × List Nat) :=
  match s with
  | 45 :: rest =>
    match lexNumBody rest with
    | some (sl, r) => some (⟨.number, 45 :: sl⟩, r)
    | none => none
  | _ =>
    match lexNumBody s with
    | some (sl, r) => some (⟨.number, sl⟩, r)
    | none => none

/-- Rule 7, `"[^"]*"` with the boundary. -/
def lexString : List Nat → Option (Tok × List Nat)
  | 34 :: rest =>
    let content := rest.takeWhile (· ≠ 34)
    match rest.dropWhile (· ≠ 34) with
    | 34 :: rest2 =>
      if boundaryB rest2 then
        some (⟨.string, 34 :: (content ++ [34])⟩, rest2)
      else none
    | _ => none
  | _ => none

/-- Rule 8, `[^\s]+` with the boundary: the maximal non-whitespace run
(nonempty), whose boundary always holds. -/
def lexIdent (s : List Nat) : Option (Tok × List Nat) :=
  match s.takeWhile (fun b => !isWsByte b) with
  | [] => none
  | run => some (⟨.ident, run⟩, s.dropWhile (fun b => !isWsByte b))

/-- `lexToken`: the rules of `token_table` in order, first match wins. -/
def lexToken (s : List Nat) : Option (Tok × List Nat) :=
  (lexComment s).orElse fun _ =>
  (lexCharB .startDef 58 s).orElse fun _ =>
  (lexCharB .endDef 59 s).orElse fun _ =>
  (lexLabel s).orElse fun _ =>
  (lexPrint s).orElse fun _ =>
  (lexNumber s).orElse fun _ =>
  (lexString s).orElse fun _ =>
  lexIdent s

/-- `lexTokens`, fuel-bounded: skip whitespace, lex one token, repeat.
`none` is fuel exhaustion or (unreachably, since the identifier rule
accepts any non-whitespace run) the unrecognized-token exit. -/
def lexTokensF : Nat → List Nat → Option (List Tok)
  | 0, _ => none
  | fuel + 1, s =>
    match s.dropWhile isWsByte with
    | [] => some []
    | s1 =>
      match lexToken s1 with
      | none => none
      | some (t, rest) => (lexTokensF fuel rest).map (t :: ·)

/-- Lex a whole buffer (the fuel suffices: each token is nonempty). -/
def lexBytes (s : List Nat) : Option (List Tok) :=
  lexTokensF (s.length + 1) s

/-- `main` on a source buffer: lex, build the machine, run. -/
def runProg (src : List Nat) (fuel : Nat) : RunResult :=
  match lexBytes src with
  | none => .lexFail
  | some toks => run fuel (initM toks)

/-- Stdout bytes of a successfully finished run. -/
def outOf : RunResult → Option (List Nat)
  | .done m => some m.out
  | _ => none

/-- Exit code of a successfully finished run. -/
def exitOf : RunResult → Option Int
  | .done m => some (exitCode m)
  | _ => none

/-- The machine a successful single step produced. -/
def okMachine : StepRes → Option Machine
  | .ok m => some m
  | _ => none

/-- Did a run end in the diagnostic-and-`exit(1)` path? -/
def isErrored : RunResult → Bool
  | .errored _ _ => true
  | _ => false

/-- Observational match of two runs: both finish with the same stdout,
data stack and return stack, each with its instruction pointer at its own
end of stream; or both stop in the error path with the same stdout,
stacks and diagnostic. -/
def obsEq : RunResult → RunResult → Prop
  | .done m1, .done m2 =>
    m1.out = m2.out ∧ m1.dstack = m2.dstack ∧ m1.rstack = m2.rstack ∧
    m1.ip = m1.stream.length ∧ m2.ip = m2.stream.length
  | .errored m1 msg1, .errored m2 msg2 =>
    m1.out = m2.out ∧ m1.dstack = m2.dstack ∧ m1.rstack = m2.rstack ∧
    msg1 = msg2
  | _, _ => False

/-! ## Supporting lemmas -/

theorem absInst_le (size : Nat) (a : Int) : absInst size a ≤ size := by
  unfold absInst
  split
  · exact Nat.zero_le _
  · exact Nat.min_le_right _ _

theorem relTarget_le (m : Machine) (off : Int) :
    m.relTarget off ≤ m.stream.length := absInst_le _ _

theorem absInst_succ_of_lt {size i : Nat} (h : i < size) :
    absInst size ((i : Int) + 1) = i + 1 := by
  unfold absInst
  rw [if_neg (by omega)]
  have : ((i : Int) + 1).toNat = i + 1 := by omega
  rw [this]
  omega

theorem lookupA_le (l : List (List Nat × Nat)) (key : List Nat) (v n : Nat)
    (h : lookupA l key = some v) (hall : ∀ kv ∈ l, kv.2 ≤ n) : v ≤ n := by
  induction l with
  | nil => simp [lookupA] at h
  | cons kv rest ih =>
    obtain ⟨k, w⟩ := kv
    unfold lookupA at h
    split at h
    · cases h
      exact hall (k, v) (by simp)
    · exact ih h fun x hx => hall x (by simp [hx])

theorem signedByte_ne_zero {b : Nat} (hlt : b < 256) (hz : b ≠ 0) :
    signedByte b ≠ 0 := by
  unfold signedByte
  split <;> omega

theorem byteOf_signedByte {b : Nat} (hlt : b < 256) :
    byteOf (signedByte b) = b := by
  unfold byteOf signedByte
  split <;> omega

/-- With no backslash in sight, the `interpString` loop body just pushes
each byte, sign-extended. -/
theorem pushBytes_plain (S : List Nat) (init : List Int)
    (h : ∀ b ∈ S, b ≠ 92) :
    List.foldr (fun b acc => pushByte acc b) init S =
      S.map signedByte ++ init := by
  induction S with
  | nil => rfl
  | cons b bs ih =>
    have hb : b ≠ 92 := h b (by simp)
    simp only [List.foldr_cons, ih fun x hx => h x (by simp [hx]),
      List.map_cons, List.cons_append]
    simp [pushByte, hb]

theorem interpString_plain (S : List Nat) (stk : List Int)
    (h : ∀ b ∈ S, b ≠ 92) :
    interpString S stk = S.map signedByte ++ (0 :: stk) :=
  pushBytes_plain S ((0 : Int) :: stk) h

/-- The `.s` drain walks over sign-extended nonzero bytes, emitting them
back, and then keeps draining whatever lies beneath. -/
theorem drainS_append (S : List Nat) (rest : List Int)
    (h : ∀ b ∈ S, b < 256 ∧ b ≠ 0) :
    drainS (S.map signedByte ++ rest) =
      (S ++ (drainS rest).1, (drainS rest).2) := by
  induction S with
  | nil => simp
  | cons b bs ih =>
    obtain ⟨hlt, hz⟩ := h b (by simp)
    simp only [List.map_cons, List.cons_append, drainS, List.append_eq]
    rw [if_neg (signedByte_ne_zero hlt hz),
      ih fun x hx => h x (by simp [hx]), byteOf_signedByte hlt]

theorem takeWhile_ne_mark (mark : Nat) (S r : List Nat)
    (hS : ∀ b ∈ S, b ≠ mark) :
    (S ++ mark :: r).takeWhile (· ≠ mark) = S ∧
    (S ++ mark :: r).dropWhile (· ≠ mark) = mark :: r := by
  induction S with
  | nil => simp [List.takeWhile, List.dropWhile]
  | cons b bs ih =>
    have hb : b ≠ mark := hS b (by simp)
    obtain ⟨iht, ihd⟩ := ih fun x hx => hS x (by simp [hx])
    simp only [ne_eq, decide_not] at iht ihd
    constructor
    · simp [List.takeWhile_cons, hb, iht]
    · simp [List.dropWhile_cons, hb, ihd]

/-! ## C1 — division or modulo by zero -/

/-- C1, counterexample.  The claim says `1 0 /` ends in the
DivisionByZero diagnostic with exit status 1; in the code `interpOperation`
performs `l / r` with no zero check, which for `r = 0` is C++ undefined
behaviour (`StepRes.ub`, surfacing as `RunResult.crash`), not the
diagnostic-and-`exit(1)` error path. -/
theorem c1_counterexample :
    runProg (bsv "1 0 /") 5 = RunResult.crash ∧
    isErrored (runProg (bsv "1 0 /") 5) = false := by
  constructor <;> rfl

/-- C1, amended: interpreting `/` or `%` with a zero right operand (the
first-popped, top-of-stack value) performs C++ integer division by zero —
undefined behaviour, modelled as `StepRes.ub` — rather than reporting any
diagnostic; no result is pushed and the diagnostic-and-`exit(1)` path is
not taken. -/
theorem c1_div_zero_ub (m : Machine) (t : Tok) (l : Int) (rest : List Int)
    (ht : m.stream[m.ip]? = some t) (hk : t.kind = .ident)
    (hs : t.slice = bsv "/" ∨ t.slice = bsv "%")
    (hd : m.dstack = 0 :: l :: rest) :
    stepM m = StepRes.ub := by
  obtain ⟨k, s⟩ := t
  simp only [Tok.kind] at hk
  subst hk
  simp only [Tok.slice] at hs
  unfold stepM
  rw [ht]
  rcases hs with hs | hs <;> subst hs <;>
    simp [interpTok, identStep, interpOperation, isOperation, opSlices,
      bsv, hd, binOpRes]

/-- C1, witness for the amended claim at `/` on stack `[0, 1]`. -/
theorem c1_witness :
    stepM ⟨[⟨.ident, [47]⟩], 0, [0, 1], [], [], [], []⟩ = StepRes.ub :=
  c1_div_zero_ub _ ⟨.ident, [47]⟩ 1 [] rfl rfl (Or.inl (by decide)) rfl

/-! ## C2 — identifier dispatch order -/

/-- C2, counterexample.  The claim says that for a name that is both an
intrinsic and a user-defined word the intrinsic runs.  After `: dup 42 ;`,
the program `5 dup .` would then duplicate the 5 and print `5`; the code
consults the dictionary first, so the user definition runs and `42` is
printed. -/
theorem c2_counterexample :
    outOf (runProg (bsv ": dup 42 ; 5 dup .") 20) = some (bsv "42\n") ∧
    bsv "42\n" ≠ bsv "5\n" := by
  constructor
  · rfl
  · decide

/-- C2, amended: the evaluator looks the slice up in the dictionary first
(case-sensitively); on a hit the user definition is called even when the
name is also an intrinsic.  Only on a dictionary miss is the slice tried
in the intrinsics table, and that lookup is not case-folded either: the
slice goes through `toLower`, whose out-of-bounds `std::transform`
destination leaves the string unchanged, so a mixed-case name such as
`DUP` finds no intrinsic.  If both lookups miss it is the undefined-word
diagnostic. -/
theorem c2_ident_dispatch (m : Machine) (t : Tok)
    (ht : m.stream[m.ip]? = some t) (hk : t.kind = .ident)
    (hop : isOperation t.slice = false) :
    (∀ a, lookupA m.dict t.slice = some a →
      stepM m = .ok { m with
        ip := a, rstack := ((m.ip : Int) + 1) :: m.rstack }) ∧
    (lookupA m.dict t.slice = none →
      (∀ f, intrinsicFn (toLowerB t.slice) = some f → stepM m = f m) ∧
      (intrinsicFn (toLowerB t.slice) = none →
        stepM m = .err m "no word named <tok> in dictionary.")) := by
  obtain ⟨k, s⟩ := t
  simp only [Tok.kind] at hk
  subst hk
  simp only [Tok.slice] at hop ⊢
  have hlt : m.ip < m.stream.length := by
    by_contra hge
    rw [List.getElem?_eq_none (by omega)] at ht
    cases ht
  refine ⟨fun a ha => ?_, fun hnone => ⟨fun f hf => ?_, fun hmiss => ?_⟩⟩
  · unfold stepM
    rw [ht]
    simp [interpTok, identStep, hop, ha, Machine.next, Machine.relTarget,
      absInst_succ_of_lt hlt]
  · unfold stepM
    rw [ht]
    simp [interpTok, identStep, hop, hnone, hf]
  · unfold stepM
    rw [ht]
    simp [interpTok, identStep, hop, hnone, hmiss]

/-- C2, witness: a machine whose dictionary defines `dup` (also an
intrinsic) — the dictionary entry wins; and a machine visiting `DUP`
with an empty dictionary — no case folding happens, so no intrinsic is
found and the step is the undefined-word diagnostic. -/
theorem c2_witness :
    stepM ⟨[⟨.ident, bsv "dup"⟩], 0, [], [], [(bsv "dup", 7)], [], []⟩ =
      .ok ⟨[⟨.ident, bsv "dup"⟩], 7, [], [1], [(bsv "dup", 7)], [], []⟩ ∧
    stepM ⟨[⟨.ident, bsv "DUP"⟩], 0, [5], [], [], [], []⟩ =
      .err ⟨[⟨.ident, bsv "DUP"⟩], 0, [5], [], [], [], []⟩
        "no word named <tok> in dictionary." := by
  constructor
  · have h := (c2_ident_dispatch ⟨[⟨.ident, bsv "dup"⟩], 0, [], [],
      [(bsv "dup", 7)], [], []⟩ ⟨.ident, bsv "dup"⟩ rfl rfl (by decide)).1 7
      (by decide)
    simpa using h
  · exact ((c2_ident_dispatch ⟨[⟨.ident, bsv "DUP"⟩], 0, [5], [], [], [], []⟩
      ⟨.ident, bsv "DUP"⟩ rfl rfl (by decide)).2 (by decide)).2 rfl

/-! ## C3 — what a visited Label records -/

/-- C3, counterexample.  For the one-token program `[x]` the pre-pass
records `x ↦ 0` (the label's own index), but visiting the label first
advances the instruction pointer and then records the advanced value, so
after the step the table holds `x ↦ 1`, not the label's index. -/
theorem c3_counterexample :
    lookupA (initM [⟨.label, bsv "[x]"⟩]).labels (bsv "x") = some 0 ∧
    (okMachine (stepM (initM [⟨.label, bsv "[x]"⟩]))).map
      (fun m2 => lookupA m2.labels (bsv "x")) = some (some 1) := by
  constructor <;> rfl

/-- C3, amended: visiting a Label token at index `p` calls `next()` first
and then records the name mapped to the advanced instruction pointer
`p + 1` (the index just past the label — one more than the index the
pre-pass recorded), overwriting any previous entry, and leaves the
instruction pointer at `p + 1`. -/
theorem c3_label_records_next (m : Machine) (t : Tok)
    (ht : m.stream[m.ip]? = some t) (hk : t.kind = .label) :
    stepM m = .ok { m with
      ip := m.ip + 1,
      labels := (labelName t.slice, m.ip + 1) :: m.labels } := by
  obtain ⟨k, s⟩ := t
  simp only [Tok.kind] at hk
  subst hk
  have hlt : m.ip < m.stream.length := by
    by_contra hge
    rw [List.getElem?_eq_none (by omega)] at ht
    cases ht
  unfold stepM
  rw [ht]
  simp [interpTok, labelStep, Machine.next, Machine.relTarget,
    absInst_succ_of_lt hlt]

/-- C3, witness for the amended claim on the program `[x]`. -/
theorem c3_witness :
    stepM (initM [⟨.label, bsv "[x]"⟩]) =
      .ok ⟨[⟨.label, bsv "[x]"⟩], 1, [], [], [], [(bsv "x", 1), (bsv "x", 0)], []⟩ := by
  have h := c3_label_records_next (initM [⟨.label, bsv "[x]"⟩])
    ⟨.label, bsv "[x]"⟩ rfl rfl
  simpa [initM, prePassFrom, labelName, bsv] using h

/-! ## C4 — the comment rule's trailing boundary -/

/-- C4, counterexample.  The claim says a comment match commits without a
trailing boundary, so `(c)x` would lex as a comment plus the identifier
`x`.  The comment rule is built by `lexRegex`, which appends the
`(?=(\s|$))` lookahead to every pattern, so the comment fails at `x` and
the catch-all identifier rule takes the whole run `(c)x`. -/
theorem c4_counterexample :
    lexBytes (bsv "(c)x") = some [⟨.ident, bsv "(c)x"⟩] ∧
    lexBytes (bsv "(c)x") ≠
      some [⟨.comment, bsv "(c)"⟩, ⟨.ident, bsv "x"⟩] := by
  constructor
  · rfl
  · decide

/-- C4, amended: the Comment rule carries the same trailing-boundary
requirement as the other `lexRegex` rules — whenever it produces a token
the remaining input is empty or starts with whitespace — so `(c)x` lexes
as the single identifier `(c)x`. -/
theorem c4_comment_boundary (s : List Nat) (t : Tok) (rest : List Nat)
    (h : lexComment s = some (t, rest)) : boundaryB rest = true := by
  unfold lexComment at h
  split at h
  · split at h
    · split at h
      · cases h
        assumption
      · cases h
    · cases h
  · cases h

/-- C4, witness: a comment followed by a space lexes, and the boundary
indeed holds after it. -/
theorem c4_witness : boundaryB (bsv " x") = true :=
  c4_comment_boundary (bsv "(c) x") ⟨.comment, bsv "(c)"⟩ (bsv " x")
    (by decide)

/-! ## C5 — `branch` target semantics -/

/-- C5: the `branch` intrinsic steps onto the following token; for a
Number target the new instruction pointer is the clamp of (index of the
Number token) plus its `strtol` value — relative to the target, not to
`branch` itself — and for an Identifier target the slice is looked up in
the label table, landing on the stored position, with the missing-label
diagnostic when absent. -/
theorem c5_branch_target (m : Machine) (tt : Tok)
    (ht : m.stream[m.ip + 1]? = some tt) :
    (tt.kind = .number →
      branchI m = .ok { m with
        ip := absInst m.stream.length ((m.ip : Int) + 1 + parseNum tt.slice) }) ∧
    (tt.kind = .ident →
      (∀ a, lookupA m.labels tt.slice = some a →
        branchI m = .ok { m with ip := a }) ∧
      (lookupA m.labels tt.slice = none →
        branchI m = .err { m with ip := m.ip + 1 }
          "tried to branch to nonexistent label")) := by
  have hlt : m.ip + 1 < m.stream.length := by
    by_contra hge
    rw [List.getElem?_eq_none (by omega)] at ht
    cases ht
  have hnext : m.next = { m with ip := m.ip + 1 } := by
    simp [Machine.next, Machine.relTarget, absInst_succ_of_lt (by omega : m.ip < m.stream.length)]
  refine ⟨fun hnum => ?_, fun hid => ⟨fun a ha => ?_, fun hnone => ?_⟩⟩
  · unfold branchI branchToTarget
    rw [hnext]
    simp only []
    rw [show ({ m with ip := m.ip + 1 } : Machine).stream[({ m with ip := m.ip + 1 } : Machine).ip]? = some tt from ht]
    simp [hnum, Machine.relTarget]
  · unfold branchI branchToTarget
    rw [hnext]
    simp only []
    rw [show ({ m with ip := m.ip + 1 } : Machine).stream[({ m with ip := m.ip + 1 } : Machine).ip]? = some tt from ht]
    have hnk : tt.kind ≠ .number := by rw [hid]; decide
    simp [hnk, ha]
  · unfold branchI branchToTarget
    rw [hnext]
    simp only []
    rw [show ({ m with ip := m.ip + 1 } : Machine).stream[({ m with ip := m.ip + 1 } : Machine).ip]? = some tt from ht]
    have hnk : tt.kind ≠ .number := by rw [hid]; decide
    simp [hnk, hnone]

/-- C5, witness: `branch` at index 0 with the Number `2` at index 1 sets
the ip to clamp(1 + 2) = 2 in a 2-token stream. -/
theorem c5_witness :
    branchI ⟨[⟨.ident, bsv "branch"⟩, ⟨.number, [50]⟩], 0, [], [], [], [], []⟩ =
      .ok ⟨[⟨.ident, bsv "branch"⟩, ⟨.number, [50]⟩], 2, [], [], [], [], []⟩ := by
  have h := (c5_branch_target
    ⟨[⟨.ident, bsv "branch"⟩, ⟨.number, [50]⟩], 0, [], [], [], [], []⟩
    ⟨.number, [50]⟩ rfl).1 rfl
  rw [h]
  rfl

/-! ## C6 — binary operator operand order -/

/-- C6: a binary operator pops the right operand `r` first and the left
operand `l` second and pushes the value `binOpRes slice l r` computes from
them (so the top of the stack is the right operand); concretely the
program `2 1 - .` writes exactly `1\n`. -/
theorem c6_binop_order :
    (∀ (m : Machine) (t : Tok) (l r : Int) (rest : List Int) (v : Int),
      m.stream[m.ip]? = some t → t.kind = .ident →
      isOperation t.slice = true → t.slice ≠ [33] →
      m.dstack = r :: l :: rest →
      binOpRes t.slice l r = .val v →
      stepM m = .ok { m with ip := m.ip + 1, dstack := v :: rest }) ∧
    outOf (runProg (bsv "2 1 - .") 9) = some (bsv "1\n") := by
  constructor
  · intro m t l r rest v ht hk hop hbang hd hv
    obtain ⟨k, s⟩ := t
    simp only [Tok.kind] at hk
    subst hk
    simp only [Tok.slice] at hop hbang hv
    have hlt : m.ip < m.stream.length := by
      by_contra hge
      rw [List.getElem?_eq_none (by omega)] at ht
      cases ht
    unfold stepM
    rw [ht]
    simp [interpTok, identStep, hop, interpOperation, hbang, hd, hv,
      Machine.next, Machine.relTarget, absInst_succ_of_lt hlt]
  · rfl

/-- C6, witness for the universal part at `-` with `l = 2`, `r = 1`. -/
theorem c6_witness :
    stepM ⟨[⟨.ident, [45]⟩], 0, [1, 2], [], [], [], []⟩ =
      .ok ⟨[⟨.ident, [45]⟩], 1, [1], [], [], [], []⟩ := by
  have h := c6_binop_order.1 ⟨[⟨.ident, [45]⟩], 0, [1, 2], [], [], [], []⟩
    ⟨.ident, [45]⟩ 2 1 [] 1 rfl rfl (by decide) (by decide) rfl (by decide)
  simpa using h

/-! ## C10 — a literal ending in a backslash loses its terminator -/

/-- C10: when a string literal's payload ends in a backslash, the
`interpString` loop meets that backslash first; it pops the `0` pushed as
terminator and, since `0` matches no escape case, pushes nothing back.
The literal's stack contribution is then just its (unescaped) bytes with
no `0` beneath them, and a subsequent `.s` drain runs straight through
into whatever lay below — emitting the literal and then continuing to
drain the old stack, underflowing if no `0` is found there. -/
theorem c10_trailing_backslash (S : List Nat) (d : List Int)
    (h : ∀ b ∈ S, b < 256 ∧ b ≠ 0 ∧ b ≠ 92) :
    interpString (S ++ [92]) d = S.map signedByte ++ d ∧
    drainS (S.map signedByte ++ d) = (S ++ (drainS d).1, (drainS d).2) := by
  constructor
  · unfold interpString
    rw [List.foldr_append]
    simp only [List.foldr_cons, List.foldr_nil]
    rw [show pushByte ((0 : Int) :: d) 92 = d by simp [pushByte]]
    exact pushBytes_plain S d fun b hb => (h b hb).2.2
  · exact drainS_append S d fun b hb => ⟨(h b hb).1, (h b hb).2.1⟩

/-- C10, witness: payload `a\` over an old stack `[7]` with no terminator
of its own; the drain emits `a`, then pops the `7` from beneath the
literal and underflows. -/
theorem c10_witness :
    interpString ([97] ++ [92]) [7] = [97, 7] ∧
    drainS [97, 7] = ([97, 7], none) := by
  have h := c10_trailing_backslash [97] [7] (by decide)
  simpa using h

/-! ## C8 — `."S"` is `"S" .s` -/

/-- Interpreting a `."S"` print token is the literal push followed by the
drain, on the unchanged machine. -/
theorem printStep_quote (m : Machine) (S : List Nat) :
    printStep m ⟨.print, 46 :: 34 :: (S ++ [34])⟩ =
      drainStep { m with dstack := interpString S m.dstack } := by
  unfold printStep
  rw [if_pos (by simp)]
  simp

/-- Interpreting a bare `.s` print token is exactly the drain. -/
theorem printStep_dotS (m : Machine) :
    printStep m ⟨.print, [46, 115]⟩ = drainStep m := rfl

/-- C8: from any starting stacks, dictionary, label table and prior
output, interpreting the single token `."S"` and interpreting the
two-token sequence `"S" .s` write the same stdout bytes, finish with the
same data and return stacks with the instruction pointer past the
construct — or both stop in the same drain-underflow diagnostic with the
same output and stacks. -/
theorem c8_print_equiv (S : List Nat) (d r : List Int)
    (dc lb : List (List Nat × Nat)) (o : List Nat) :
    obsEq
      (run 2 ⟨[⟨.print, 46 :: 34 :: (S ++ [34])⟩], 0, d, r, dc, lb, o⟩)
      (run 3 ⟨[⟨.string, 34 :: (S ++ [34])⟩, ⟨.print, [46, 115]⟩], 0, d, r, dc, lb, o⟩) := by
  have hpay2 : strPayload (34 :: (S ++ [34])) = S := by
    simp [strPayload]
  rcases hdr : drainS (interpString S d) with ⟨o2, rest?⟩
  cases rest? with
  | some rest =>
    simp [run, interpTok, printStep_quote, printStep_dotS, hpay2,
      drainStep, Machine.next, Machine.relTarget, hdr, absInst, obsEq]
  | none =>
    simp [run, interpTok, printStep_quote, printStep_dotS, hpay2,
      drainStep, Machine.next, Machine.relTarget, hdr, absInst, obsEq]

/-! ## C7 — round trip of a plain string literal through `.s` -/

/-- A string literal at the head of the input lexes as one String token
whenever its payload has no quote and a boundary follows. -/
theorem lexToken_quote (S r2 : List Nat) (hS : ∀ b ∈ S, b ≠ 34)
    (hb : boundaryB r2 = true) :
    lexToken (34 :: (S ++ 34 :: r2)) =
      some (⟨.string, 34 :: (S ++ [34])⟩, r2) := by
  obtain ⟨htw, hdw⟩ := takeWhile_ne_mark 34 S r2 hS
  simp only [ne_eq, decide_not] at htw hdw
  simp [lexToken, lexComment, lexCharB, lexLabel, lexPrint, lexNumber,
    lexNumBody, lexString, lexOct, Option.orElse, htw, hdw, hb]

/-- Lexing the leftover ` .s` under any extra fuel. -/
theorem lexTokensF_dotS_tail (n : Nat) :
    lexTokensF (n + 2) [32, 46, 115] = some [⟨.print, [46, 115]⟩] := by
  simp [lexTokensF, lexToken, lexComment, lexCharB, lexLabel, lexPrint,
    lexNumber, lexNumBody, lexOct, lexString, lexIdent, Option.orElse,
    isWsByte, boundaryB, List.dropWhile]

/-- Lexing the whole program `"S" .s` (no quote in `S`). -/
theorem lexBytes_quote_prog (S : List Nat) (hS : ∀ b ∈ S, b ≠ 34) :
    lexBytes (34 :: (S ++ [34, 32, 46, 115])) =
      some [⟨.string, 34 :: (S ++ [34])⟩, ⟨.print, [46, 115]⟩] := by
  unfold lexBytes
  have hlen : (34 :: (S ++ [34, 32, 46, 115])).length + 1 = S.length + 4 + 2 := by
    simp
  rw [hlen]
  have h1 : lexTokensF (S.length + 4 + 2) (34 :: (S ++ [34, 32, 46, 115])) =
      (lexTokensF (S.length + 4 + 1) [32, 46, 115]).map
        ((⟨.string, 34 :: (S ++ [34])⟩ : Tok) :: ·) := by
    simp [lexTokensF, List.dropWhile, isWsByte,
      lexToken_quote S [32, 46, 115] hS (by decide)]
  rw [h1, show S.length + 4 + 1 = S.length + 3 + 2 from by omega,
    lexTokensF_dotS_tail]
  rfl

/-- C7: for a payload `S` with no quote, no backslash and no zero byte,
the program `"S" .s` runs from the empty machine to completion, writing
exactly the bytes of `S` and leaving the data stack (and everything else)
empty. -/
theorem c7_roundtrip (S : List Nat)
    (h : ∀ b ∈ S, b < 256 ∧ b ≠ 0 ∧ b ≠ 34 ∧ b ≠ 92) :
    runProg (34 :: (S ++ [34, 32, 46, 115])) 3 =
      .done ⟨[⟨.string, 34 :: (S ++ [34])⟩, ⟨.print, [46, 115]⟩],
             2, [], [], [], [], S⟩ := by
  unfold runProg
  rw [lexBytes_quote_prog S fun b hb => (h b hb).2.2.1]
  have hPstr : interpString S ([] : List Int) = S.map signedByte ++ [0] := by
    simpa using interpString_plain S [] fun b hb => (h b hb).2.2.2
  have hdr : drainS (S.map signedByte ++ [0]) = (S, some []) := by
    have hd := drainS_append S [0] fun b hb => ⟨(h b hb).1, (h b hb).2.1⟩
    simpa [drainS] using hd
  simp [run, initM, prePassFrom, interpTok, strPayload, hPstr,
    printStep_dotS, drainStep, hdr, Machine.next, Machine.relTarget, absInst]

/-- C7, witness at `S = "hi"`. -/
theorem c7_witness :
    runProg (34 :: (bsv "hi" ++ [34, 32, 46, 115])) 3 =
      .done ⟨[⟨.string, 34 :: (bsv "hi" ++ [34])⟩, ⟨.print, [46, 115]⟩],
             2, [], [], [], [], bsv "hi"⟩ :=
  c7_roundtrip (bsv "hi") (by decide)

/-! ## C9 — the instruction-pointer bounds invariant

The invariant strong enough to be preserved: the ip is within
`[0, |stream|]` (the upper bound weak, `|stream|` meaning end-of-stream;
`0 ≤` is the type of the index), and every address stored in the
dictionary and the label table is too, since calls and label branches
load those values into the ip unclamped. -/

def IpInv (m : Machine) : Prop :=
  m.ip ≤ m.stream.length ∧
  (∀ kv ∈ m.dict, kv.2 ≤ m.stream.length) ∧
  (∀ kv ∈ m.labels, kv.2 ≤ m.stream.length)

theorem prePassFrom_lt (toks : List Tok) (i : Nat) (kv : List Nat × Nat)
    (h : kv ∈ prePassFrom i toks) : kv.2 < i + toks.length := by
  induction toks generalizing i with
  | nil => simp [prePassFrom] at h
  | cons t rest ih =>
    unfold prePassFrom at h
    split at h
    · rcases List.mem_append.mp h with h1 | h2
      · have := ih (i + 1) h1
        simp only [List.length_cons]
        omega
      · simp only [List.mem_singleton] at h2
        subst h2
        simp only [List.length_cons]
        omega
    · have := ih (i + 1) h
      simp only [List.length_cons]
      omega

/-- Replacing fields while keeping stream, dictionary and labels, with a
bounded ip, keeps the invariant. -/
theorem IpInv_set (m0 M : Machine) (hInv : IpInv m0)
    (hs : M.stream = m0.stream) (hd : M.dict = m0.dict)
    (hl : M.labels = m0.labels) (hip : M.ip ≤ m0.stream.length) :
    M.stream = m0.stream ∧ IpInv M := by
  obtain ⟨-, h2, h3⟩ := hInv
  refine ⟨hs, by rw [hs]; exact hip, fun kv hkv => ?_, fun kv hkv => ?_⟩
  · rw [hs]
    exact h2 kv (by rwa [hd] at hkv)
  · rw [hs]
    exact h3 kv (by rwa [hl] at hkv)

/-- A clamped `next()` from any intermediate machine with the same
stream and tables keeps the invariant. -/
theorem IpInv_next_same (m0 M : Machine) (hInv : IpInv m0)
    (hs : M.stream = m0.stream) (hd : M.dict = m0.dict)
    (hl : M.labels = m0.labels) :
    (Machine.next M).stream = m0.stream ∧ IpInv (Machine.next M) := by
  apply IpInv_set m0 (Machine.next M) hInv
  · simpa [Machine.next] using hs
  · simpa [Machine.next] using hd
  · simpa [Machine.next] using hl
  · have h := relTarget_le M 1
    simp only [Machine.next]
    rwa [← hs]

theorem interpOperation_inv (m m' : Machine) (t : Tok) (hInv : IpInv m)
    (h : interpOperation m t = .ok m') : m'.stream = m.stream ∧ IpInv m' := by
  unfold interpOperation at h
  split at h
  · split at h
    · cases h
    · cases h
      exact IpInv_next_same m _ hInv rfl rfl rfl
  · split at h
    · cases h
    · cases h
    · split at h
      · cases h
        exact IpInv_next_same m _ hInv rfl rfl rfl
      · cases h
      · cases h
      · cases h
        exact IpInv_next_same m _ hInv rfl rfl rfl

theorem exitStep_inv (m m' : Machine) (hInv : IpInv m)
    (h : exitStep m = .ok m') : m'.stream = m.stream ∧ IpInv m' := by
  unfold exitStep at h
  split at h
  · cases h
  · split at h
    · cases h
    · cases h
      exact IpInv_set m _ hInv rfl rfl rfl (absInst_le _ _)

theorem startDefStep_inv (m m' : Machine) (hInv : IpInv m)
    (h : startDefStep m = .ok m') : m'.stream = m.stream ∧ IpInv m' := by
  unfold startDefStep at h
  simp only [] at h
  split at h
  · cases h
  · split at h
    · cases h
    · split at h
      · cases h
      · cases h
        obtain ⟨h1, h2, h3⟩ := hInv
        refine ⟨rfl, ?_, fun kv hkv => ?_, h3⟩
        · simp only [Machine.next, Machine.relTarget]
          apply absInst_le
        · rcases List.mem_cons.mp hkv with heq | hmem
          · subst heq
            simp only [Machine.next, Machine.relTarget]
            apply absInst_le
          · exact h2 kv hmem

theorem labelStep_inv (m m' : Machine) (t : Tok) (hInv : IpInv m)
    (h : labelStep m t = .ok m') : m'.stream = m.stream ∧ IpInv m' := by
  unfold labelStep at h
  simp only [] at h
  cases h
  obtain ⟨h1, h2, h3⟩ := hInv
  refine ⟨rfl, ?_, h2, fun kv hkv => ?_⟩
  · exact relTarget_le m 1
  · rcases List.mem_cons.mp hkv with rfl | hmem
    · exact relTarget_le m 1
    · exact h3 kv hmem

theorem printStep_inv (m m' : Machine) (t : Tok) (hInv : IpInv m)
    (h : printStep m t = .ok m') : m'.stream = m.stream ∧ IpInv m' := by
  unfold printStep drainStep at h
  split at h
  · split at h
    · split at h
      · cases h
        exact IpInv_next_same m _ hInv rfl rfl rfl
      · cases h
    · cases h
      exact IpInv_next_same m _ hInv rfl rfl rfl
    · split at h
      · cases h
      · cases h
        exact IpInv_next_same m _ hInv rfl rfl rfl
    · split at h
      · cases h
        exact IpInv_next_same m _ hInv rfl rfl rfl
      · cases h
  · split at h
    · cases h
    · cases h
      exact IpInv_next_same m _ hInv rfl rfl rfl

theorem branchToTarget_inv (m m' : Machine) (doB : Bool) (hInv : IpInv m)
    (h : branchToTarget m doB = .ok m') : m'.stream = m.stream ∧ IpInv m' := by
  unfold branchToTarget at h
  simp only [] at h
  split at h
  · cases h
  · split at h
    · cases h
      exact IpInv_next_same m _ hInv rfl rfl rfl
    · split at h
      · cases h
        exact IpInv_set m _ hInv rfl rfl rfl (relTarget_le _ _)
      · split at h
        · rename_i a ha
          cases h
          exact IpInv_set m _ hInv rfl rfl rfl
            (lookupA_le _ _ _ _ ha hInv.2.2)
        · cases h

theorem dupI_inv (m m' : Machine) (hInv : IpInv m)
    (h : dupI m = .ok m') : m'.stream = m.stream ∧ IpInv m' := by
  unfold dupI at h
  split at h
  · cases h
  · cases h
    exact IpInv_next_same m _ hInv rfl rfl rfl

theorem swapI_inv (m m' : Machine) (hInv : IpInv m)
    (h : swapI m = .ok m') : m'.stream = m.stream ∧ IpInv m' := by
  unfold swapI at h
  split at h
  · cases h
  · cases h
  · cases h
    exact IpInv_next_same m _ hInv rfl rfl rfl

theorem overI_inv (m m' : Machine) (hInv : IpInv m)
    (h : overI m = .ok m') : m'.stream = m.stream ∧ IpInv m' := by
  unfold overI at h
  split at h
  · cases h
  · cases h
  · cases h
    exact IpInv_next_same m _ hInv rfl rfl rfl

theorem rotI_inv (m m' : Machine) (hInv : IpInv m)
    (h : rotI m = .ok m') : m'.stream = m.stream ∧ IpInv m' := by
  unfold rotI at h
  split at h
  · cases h
  · cases h
  · cases h
  · cases h
    exact IpInv_next_same m _ hInv rfl rfl rfl

theorem dropI_inv (m m' : Machine) (hInv : IpInv m)
    (h : dropI m = .ok m') : m'.stream = m.stream ∧ IpInv m' := by
  unfold dropI at h
  split at h
  · cases h
  · cases h
    exact IpInv_next_same m _ hInv rfl rfl rfl

theorem clearI_inv (m m' : Machine) (hInv : IpInv m)
    (h : clearI m = .ok m') : m'.stream = m.stream ∧ IpInv m' := by
  unfold clearI at h
  cases h
  exact IpInv_next_same m _ hInv rfl rfl rfl

theorem ifI_inv (m m' : Machine) (hInv : IpInv m)
    (h : ifI m = .ok m') : m'.stream = m.stream ∧ IpInv m' := by
  unfold ifI at h
  simp only [] at h
  split at h
  · cases h
  · split at h
    · cases h
      exact IpInv_next_same m _ hInv rfl rfl rfl
    · split at h
      · cases h
      · cases h
        exact IpInv_next_same m _ hInv rfl rfl rfl

theorem elseI_inv (m m' : Machine) (hInv : IpInv m)
    (h : elseI m = .ok m') : m'.stream = m.stream ∧ IpInv m' := by
  unfold elseI at h
  simp only [] at h
  split at h
  · cases h
  · cases h
    exact IpInv_next_same m _ hInv rfl rfl rfl

theorem thenI_inv (m m' : Machine) (hInv : IpInv m)
    (h : thenI m = .ok m') : m'.stream = m.stream ∧ IpInv m' := by
  unfold thenI at h
  cases h
  exact IpInv_next_same m m hInv rfl rfl rfl

theorem condBranchI_inv (m m' : Machine) (hInv : IpInv m)
    (h : condBranchI m = .ok m') : m'.stream = m.stream ∧ IpInv m' := by
  unfold condBranchI at h
  split at h
  · cases h
  · rename_i c rest heq
    have hInv2 : IpInv { m with dstack := rest } := hInv
    exact branchToTarget_inv { m with dstack := rest } m' _ hInv2 h

theorem toRI_inv (m m' : Machine) (hInv : IpInv m)
    (h : toRI m = .ok m') : m'.stream = m.stream ∧ IpInv m' := by
  unfold toRI at h
  split at h
  · cases h
  · cases h
    exact IpInv_next_same m _ hInv rfl rfl rfl

theorem fromRI_inv (m m' : Machine) (hInv : IpInv m)
    (h : fromRI m = .ok m') : m'.stream = m.stream ∧ IpInv m' := by
  unfold fromRI at h
  split at h
  · cases h
  · cases h
    exact IpInv_next_same m _ hInv rfl rfl rfl

theorem rAtI_inv (m m' : Machine) (hInv : IpInv m)
    (h : rAtI m = .ok m') : m'.stream = m.stream ∧ IpInv m' := by
  unfold rAtI at h
  split at h
  · cases h
  · cases h
    exact IpInv_next_same m _ hInv rfl rfl rfl

theorem rdropI_inv (m m' : Machine) (hInv : IpInv m)
    (h : rdropI m = .ok m') : m'.stream = m.stream ∧ IpInv m' := by
  unfold rdropI at h
  split at h
  · cases h
  · cases h
    exact IpInv_next_same m _ hInv rfl rfl rfl

theorem rclearI_inv (m m' : Machine) (hInv : IpInv m)
    (h : rclearI m = .ok m') : m'.stream = m.stream ∧ IpInv m' := by
  unfold rclearI at h
  cases h
  exact IpInv_next_same m _ hInv rfl rfl rfl

theorem crI_inv (m m' : Machine) (hInv : IpInv m)
    (h : crI m = .ok m') : m'.stream = m.stream ∧ IpInv m' := by
  unfold crI at h
  cases h
  exact IpInv_next_same m _ hInv rfl rfl rfl

theorem intrinsicFn_inv (idb : List Nat) (f : Machine → StepRes)
    (hf : intrinsicFn idb = some f) (m m' : Machine) (hInv : IpInv m)
    (h : f m = .ok m') : m'.stream = m.stream ∧ IpInv m' := by
  unfold intrinsicFn at hf
  by_cases hc0 : idb = bsv "dup"
  · rw [if_pos hc0] at hf
    cases hf
    exact dupI_inv m m' hInv h
  · rw [if_neg hc0] at hf
    by_cases hc1 : idb = bsv "swap"
    · rw [if_pos hc1] at hf
      cases hf
      exact swapI_inv m m' hInv h
    · rw [if_neg hc1] at hf
      by_cases hc2 : idb = bsv "over"
      · rw [if_pos hc2] at hf
        cases hf
        exact overI_inv m m' hInv h
      · rw [if_neg hc2] at hf
        by_cases hc3 : idb = bsv "rot"
        · rw [if_pos hc3] at hf
          cases hf
          exact rotI_inv m m' hInv h
        · rw [if_neg hc3] at hf
          by_cases hc4 : idb = bsv "drop"
          · rw [if_pos hc4] at hf
            cases hf
            exact dropI_inv m m' hInv h
          · rw [if_neg hc4] at hf
            by_cases hc5 : idb = bsv "clear"
            · rw [if_pos hc5] at hf
              cases hf
              exact clearI_inv m m' hInv h
            · rw [if_neg hc5] at hf
              by_cases hc6 : idb = bsv "if"
              · rw [if_pos hc6] at hf
                cases hf
                exact ifI_inv m m' hInv h
              · rw [if_neg hc6] at hf
                by_cases hc7 : idb = bsv "else"
                · rw [if_pos hc7] at hf
                  cases hf
                  exact elseI_inv m m' hInv h
                · rw [if_neg hc7] at hf
                  by_cases hc8 : idb = bsv "then"
                  · rw [if_pos hc8] at hf
                    cases hf
                    exact thenI_inv m m' hInv h
                  · rw [if_neg hc8] at hf
                    by_cases hc9 : idb = bsv "branch"
                    · rw [if_pos hc9] at hf
                      cases hf
                      unfold branchI at h
                      exact branchToTarget_inv m m' true hInv h
                    · rw [if_neg hc9] at hf
                      by_cases hc10 : idb = bsv "?branch"
                      · rw [if_pos hc10] at hf
                        cases hf
                        exact condBranchI_inv m m' hInv h
                      · rw [if_neg hc10] at hf
                        by_cases hc11 : idb = bsv ">r"
                        · rw [if_pos hc11] at hf
                          cases hf
                          exact toRI_inv m m' hInv h
                        · rw [if_neg hc11] at hf
                          by_cases hc12 : idb = bsv "r>"
                          · rw [if_pos hc12] at hf
                            cases hf
                            exact fromRI_inv m m' hInv h
                          · rw [if_neg hc12] at hf
                            by_cases hc13 : idb = bsv "r@"
                            · rw [if_pos hc13] at hf
                              cases hf
                              exact rAtI_inv m m' hInv h
                            · rw [if_neg hc13] at hf
                              by_cases hc14 : idb = bsv "rdrop"
                              · rw [if_pos hc14] at hf
                                cases hf
                                exact rdropI_inv m m' hInv h
                              · rw [if_neg hc14] at hf
                                by_cases hc15 : idb = bsv "rclear"
                                · rw [if_pos hc15] at hf
                                  cases hf
                                  exact rclearI_inv m m' hInv h
                                · rw [if_neg hc15] at hf
                                  by_cases hc16 : idb = bsv "cr"
                                  · rw [if_pos hc16] at hf
                                    cases hf
                                    exact crI_inv m m' hInv h
                                  · rw [if_neg hc16] at hf
                                    by_cases hc17 : idb = bsv "exit"
                                    · rw [if_pos hc17] at hf
                                      cases hf
                                      unfold exitI at h
                                      exact exitStep_inv m m' hInv h
                                    · rw [if_neg hc17] at hf
                                      cases hf

theorem identStep_inv (m m' : Machine) (t : Tok) (hInv : IpInv m)
    (h : identStep m t = .ok m') : m'.stream = m.stream ∧ IpInv m' := by
  unfold identStep at h
  simp only [] at h
  split at h
  · exact interpOperation_inv m m' t hInv h
  · split at h
    · rename_i a ha
      cases h
      exact IpInv_set m _ hInv rfl rfl rfl (lookupA_le _ _ _ _ ha hInv.2.1)
    · split at h
      · rename_i f hf
        exact intrinsicFn_inv _ f hf m m' hInv h
      · cases h

set_option maxHeartbeats 1000000 in
theorem interpTok_inv (m m' : Machine) (t : Tok) (hInv : IpInv m)
    (h : interpTok m t = .ok m') : m'.stream = m.stream ∧ IpInv m' := by
  unfold interpTok at h
  split at h
  · cases h
    exact IpInv_next_same m m hInv rfl rfl rfl
  · exact startDefStep_inv m m' hInv h
  · exact exitStep_inv m m' hInv h
  · exact labelStep_inv m m' t hInv h
  · exact printStep_inv m m' t hInv h
  · cases h
    exact IpInv_next_same m _ hInv rfl rfl rfl
  · cases h
    exact IpInv_next_same m _ hInv rfl rfl rfl
  · exact identStep_inv m m' t hInv h

/-- C9: `0 ≤ IP ≤ |TokenStream|` (the upper bound with `|TokenStream|`
meaning end-of-stream) holds when the machine is built, and every
successful evaluator step — `next`, relative and absolute branches,
calls, `exit`, label branches, all of them routed through the clamped
addressing or the bounded tables — preserves it, together with the bounds
on the stored dictionary and label addresses it needs; the token stream
itself never changes, so the bound holds at every iteration of the
evaluator loop, and when the loop exits the instruction pointer sits
exactly at end-of-stream.  The lower bound is carried by the `Nat`
index. -/
theorem c9_ip_bounds :
    (∀ toks, IpInv (initM toks)) ∧
    (∀ m m', IpInv m → stepM m = .ok m' →
      m'.stream = m.stream ∧ IpInv m') ∧
    (∀ fuel m mf, IpInv m → run fuel m = .done mf →
      mf.ip = mf.stream.length ∧ IpInv mf) := by
  refine ⟨?_, ?_, ?_⟩
  · intro toks
    refine ⟨Nat.zero_le _, fun kv hkv => ?_, fun kv hkv => ?_⟩
    · simp [initM] at hkv
    · simp only [initM] at hkv
      have hb := prePassFrom_lt toks 0 kv hkv
      simp only [initM]
      omega
  · intro m m' hInv hstep
    unfold stepM at hstep
    split at hstep
    · cases hstep
      exact ⟨rfl, hInv⟩
    · exact interpTok_inv m m' _ hInv hstep
  · intro fuel
    induction fuel with
    | zero =>
      intro m mf hInv hrun
      cases hrun
    | succ f ih =>
      intro m mf hInv hrun
      unfold run at hrun
      split at hrun
      · rename_i hnone
        cases hrun
        have hge : ¬ m.ip < m.stream.length := by
          intro hlt
          rw [List.getElem?_eq_getElem hlt] at hnone
          cases hnone
        exact ⟨Nat.le_antisymm hInv.1 (Nat.le_of_not_lt hge), hInv⟩
      · rename_i t hsome
        split at hrun
        · rename_i m1 hstep
          exact ih m1 mf (interpTok_inv m m1 t hInv hstep).2 hrun
        · cases hrun
        · cases hrun

/-- C9, witness: the invariant holds for the machine over `1` and is
preserved by its first step. -/
theorem c9_witness :
    (⟨[⟨.number, [49]⟩], 1, [1], [], [], [], []⟩ : Machine).stream =
      (initM [⟨.number, [49]⟩]).stream ∧
    IpInv ⟨[⟨.number, [49]⟩], 1, [1], [], [], [], []⟩ :=
  c9_ip_bounds.2.1 (initM [⟨.number, [49]⟩]) _
    ⟨by decide, by decide, by decide⟩ (by decide)

end IForth


